import Mathlib

/-!
Verification development for the chiptune player repository.

The embedding below translates the Python sources into Lean:

* music_utils.py : note deltas, the four waveform generators, the Wave enum.
* file_reader.py : the note-token regular expression, NoteSheet.set_notes.
* player.py      : Sound, PlayingNote, NotePlayer (queue handling, the
                   scheduling loop of play_from_sheet_music, export_buffer).

Numeric conventions of the embedding:

* Python floats are modelled as exact rationals.  All quantities that the
  claims inspect (times, gains, beat arithmetic, buffer counts) are far from
  binary rounding boundaries at the inputs used, so exact arithmetic agrees
  with the float runs there.
* Oscillator phases are stored in units of pi: the source array
  base_func = 2 * pi * arange(buffer_size) is represented by the list
  with entries 2 * k, and every phase value p of the model stands for the
  real phase p * pi.  The factor pi is common to every phase expression in
  player.py, so scaling it out is lossless.
* Note frequencies are 55 * 2 ^ (delta / 12) in the source, with delta an
  integer determined by the note name; the map delta to frequency is
  injective, and the player only multiplies frequencies by rationals and
  compares them for equality, so the model uses an exact rational stand-in
  for the frequency (the parser below uses the integer delta itself).
-/

/-- Wave enum from music_utils.py with its four members, in source order. -/
inductive Wave where
  | sin : Wave
  | square : Wave
  | sawtooth : Wave
  | triangle : Wave
deriving DecidableEq, Repr

/-- Sound named tuple from player.py: an identity key of note frequency
(rational stand-in) and waveform. -/
structure Sound where
  note : ℚ
  waveform : Wave
deriving DecidableEq, Repr

/-- ReadNote named tuple from file_reader.py: note (frequency stand-in),
duration in beats, waveform. -/
structure ReadNote where
  note : ℚ
  beats : ℚ
  wave : Wave
deriving DecidableEq, Repr

/-- PlayingNote from player.py: a sound with its total duration and the
remaining duration, both in seconds.  The unused buffer time field of the
source class is omitted. -/
structure PlayingNote where
  sound : Sound
  duration : ℚ
  remaining : ℚ
deriving DecidableEq, Repr

/-- Alive property of PlayingNote: the remaining duration is positive. -/
def PlayingNote.alive (p : PlayingNote) : Bool :=
  if 0 < p.remaining then true else false

/-- The decrease_duration method: subtract only while the note is alive. -/
def PlayingNote.decrease (p : PlayingNote) (d : ℚ) : PlayingNote :=
  if 0 < p.remaining then { p with remaining := p.remaining - d } else p

/-- Python int() applied to a rational: truncation toward zero. -/
def pyIntQ (q : ℚ) : ℤ :=
  if 0 ≤ q then ⌊q⌋ else -⌊-q⌋

/-- Python negative index -1 on a list: the last element.  The source only
evaluates it on arrays of length buffer_size, which is positive in every
run the claims consider, so the default value is never used there. -/
def pyLast (l : List ℚ) : ℚ :=
  l.getLastD 0

/-- One queue value of NotePlayer: the phase array of the coming tick, in
units of pi, together with the gain. -/
abbrev QEntry := List ℚ × ℚ

/-- The notes queue of NotePlayer: a Python dict modelled as an ordered
association list with pairwise distinct keys. -/
abbrev Queue := List (Sound × QEntry)

/-- Phase base of NotePlayer: base_func = 2 * pi * arange(buffer_size),
stored in units of pi. -/
def baseFunc (n : ℕ) : List ℚ :=
  (List.range n).map (fun (k : ℕ) => 2 * (k : ℚ))

/-- Linear scan of the old queue for a key with the same note and waveform,
as in the loop of the _add_sound_to_queue method. -/
def findSound : Queue → Sound → Option (Sound × QEntry)
  | [], _ => none
  | e :: q, s =>
    if e.1.note = s.note ∧ e.1.waveform = s.waveform then some e else findSound q s

/-- Key membership in a queue. -/
def containsKeyQ : Queue → Sound → Bool
  | [], _ => false
  | e :: q, k => if e.1 = k then true else containsKeyQ q k

/-- Replace the value bound to a key, keeping its position. -/
def replaceKey : Queue → Sound → QEntry → Queue
  | [], _, _ => []
  | e :: q, k, v => if e.1 = k then (k, v) :: replaceKey q k v else e :: replaceKey q k v

/-- Python dict assignment: replace the binding when the key is present,
append it otherwise. -/
def insertOrReplace (q : Queue) (k : Sound) (v : QEntry) : Queue :=
  if containsKeyQ q k then replaceKey q k v else q ++ [(k, v)]

/-- Dict lookup on the association list. -/
def lookupQ : Queue → Sound → Option QEntry
  | [], _ => none
  | e :: q, k => if e.1 = k then some e.2 else lookupQ q k

/-- The _add_sound_to_queue method of NotePlayer.  When the old queue holds
a sound with the same note and waveform, the new phase array starts from the
last phase value of the old array and the gain is smoothed; otherwise a
fresh entry starts from phase zero with gain one tenth.  Arguments: the old
queue, the sample frequency, the buffer size, the sound, the new queue
being built. -/
def addSoundToQueue (oldQ : Queue) (sf : ℚ) (n : ℕ) (s : Sound) (nq : Queue) : Queue :=
  match findSound oldQ s with
  | some e =>
      insertOrReplace nq e.1
        ((baseFunc n).map (fun b => pyLast e.2.1 + b * s.note / sf), (e.2.2 + 1) / 2)
  | none =>
      insertOrReplace nq s ((baseFunc n).map (fun b => b * s.note / sf), 1 / 10)

/-- The set_sounds method of NotePlayer: rebuild the queue from a list of
sounds, reading continuation data from the old queue. -/
def setSounds (oldQ : Queue) (sf : ℚ) (n : ℕ) (sounds : List Sound) : Queue :=
  sounds.foldl (fun nq s => addSoundToQueue oldQ sf n s nq) []

/-- Membership test of a sound among the sounds of the playing notes, as in
the list comprehension of process_notes. -/
def memSound : List PlayingNote → Sound → Bool
  | [], _ => false
  | p :: r, s => if p.sound = s then true else memSound r s

/-- The process_notes method of NotePlayer: append a playing note for every
due entry whose sound is not present yet, then keep the alive notes, then
decrease every remaining duration by the buffer time. -/
def processNotes (bufferTime beatTime : ℚ) (notesToPlay : List ReadNote)
    (current : List PlayingNote) : List PlayingNote :=
  let added := notesToPlay.foldl
    (fun cur nt =>
      let s : Sound := ⟨nt.note, nt.wave⟩
      if memSound cur s then cur
      else cur ++ [{ sound := s, duration := nt.beats * beatTime,
                     remaining := nt.beats * beatTime }]) current
  ((added.filter fun p => p.alive).map fun p => p.decrease bufferTime)

/-- Record of one rendered buffer: the playing notes after process_notes and
the queue from which export_buffer renders the tick. -/
structure BufferRec where
  notes : List PlayingNote
  queue : Queue
deriving DecidableEq, Repr

/-- Mutable state of the scheduling loop in play_from_sheet_music. -/
structure LoopSt where
  queue : Queue
  notes : List PlayingNote
  time : ℚ
  beat : ℤ
deriving DecidableEq, Repr

/-- The body of the for loop of play_from_sheet_music, driven by the number
of remaining buffer indices.  The loop breaks as soon as the current beat
exceeds the number of beats of the sheet; otherwise it fetches the entries
of the clamped beat index, updates the playing notes, rebuilds the queue
and advances time and beat. -/
def playLoop (sf bs : ℕ) (beatTime : ℚ) (allNotes : List (List ReadNote)) :
    ℕ → LoopSt → List BufferRec
  | 0, _ => []
  | fuel + 1, st =>
    if st.beat > (allNotes.length : ℤ) then []
    else
      let notesToPlay := allNotes.getD (min st.beat ((allNotes.length : ℤ) - 1)).toNat []
      let notes2 := processNotes ((bs : ℚ) / (sf : ℚ)) beatTime notesToPlay st.notes
      let queue2 := setSounds st.queue (sf : ℚ) bs (notes2.map fun p => p.sound)
      let time2 := st.time + (bs : ℚ) / (sf : ℚ)
      ⟨notes2, queue2⟩ ::
        playLoop sf bs beatTime allNotes fuel ⟨queue2, notes2, time2, pyIntQ (time2 / beatTime)⟩

/-- Maximum of a list of rationals, as Python max on a nonempty list.  The
source raises on an empty list; the default zero is never used by the
claims. -/
def maxListQ : List ℚ → ℚ
  | [] => 0
  | h :: t => t.foldl max h

/-- The play_time property of NoteSheet: zero for an empty sheet, otherwise
the number of beats plus the longest duration of the final beat, in beats,
times the beat time. -/
def playTimeModel (bpm : ℕ) (sheet : List (List ReadNote)) : ℚ :=
  if sheet = [] then 0
  else ((sheet.length : ℚ) + maxListQ ((sheet.getLastD []).map fun nt => nt.beats))
        * (60 / (bpm : ℚ))

/-- The play_from_sheet_music method of NotePlayer, returning the per buffer
records of the rendered pass.  The number of buffers is the truncated
quotient of the total sample count by the buffer size. -/
def playFromSheet (sf bs : ℕ) (bpm : ℕ) (sheet : List (List ReadNote)) : List BufferRec :=
  let beatTime := 60 / (bpm : ℚ)
  let numBuffers := pyIntQ ((sf : ℚ) * playTimeModel bpm sheet / (bs : ℚ))
  playLoop sf bs beatTime sheet numBuffers.toNat ⟨[], [], 0, 0⟩

/-- Elementwise sum of sample arrays, as numpy sum along axis zero on a list
of arrays of equal length. -/
def sumArrays : List (List ℚ) → List ℚ
  | [] => []
  | c :: cs => cs.foldl (fun acc l => List.zipWith (· + ·) acc l) c

/-- The mixing tail of export_buffer: the arithmetic mean of the component
arrays when there are any, an all zero buffer otherwise. -/
def mixComponents (n : ℕ) (components : List (List ℚ)) : List ℚ :=
  match components with
  | [] => List.replicate n 0
  | c :: cs =>
      (sumArrays (c :: cs)).map fun x => x / ((c :: cs).length : ℚ)

/-- The export_buffer method of NotePlayer.  The waveform generators act on
real phases, so they enter the model as a parameter mapping a waveform tag
and a phase in units of pi to a sample; each component array is the
generator applied to the stored phase array, scaled by the gain. -/
def exportBuffer (wf : Wave → ℚ → ℚ) (n : ℕ) (q : Queue) : List ℚ :=
  mixComponents n (q.map fun e => e.2.1.map fun p => wf e.1.waveform p * e.2.2)

/-- Construction data of NotePlayer: the init method stores the sample
frequency, the truncated product of buffer duration and sample frequency as
the buffer size, and their quotient as the buffer time. -/
structure PlayerInit where
  sampleFreq : ℕ
  bufferSize : ℤ
  bufferTime : ℚ
deriving DecidableEq, Repr

/-- The init method of NotePlayer on a sample frequency and a buffer
duration in seconds. -/
def playerInit (sampleFreq : ℕ) (bufferDuration : ℚ) : PlayerInit :=
  { sampleFreq := sampleFreq
    bufferSize := pyIntQ (bufferDuration * (sampleFreq : ℚ))
    bufferTime := (pyIntQ (bufferDuration * (sampleFreq : ℚ)) : ℚ) / (sampleFreq : ℚ) }

/-- Gain sequence of a sound that stays in the queue tick after tick: the
fresh gain is one tenth and each further tick applies the smoothing step of
_add_sound_to_queue. -/
def gainSeq : ℕ → ℚ
  | 0 => 1 / 10
  | k + 1 => (gainSeq k + 1) / 2

/-- Digit test used by the regular expressions, matching the d class on the
ASCII strings of the score format. -/
def isDig (c : Char) : Bool :=
  c.isDigit

/-- Optional accidental of the note name pattern: consume one leading sharp
or flat character when present. -/
def parseAccidental : List Char → List Char × List Char
  | [] => ([], [])
  | c :: rest => if c = '#' ∨ c = 'b' then ([c], rest) else ([], c :: rest)

/-- The note name pattern of music_utils: a letter between A and G, an
optional accidental, then one or more digits.  Returns the two groups, note
name and octave, with the unconsumed remainder.  The greedy regex never
needs backtracking here: an accidental character is not a digit, so
consuming it can not steal the first octave digit. -/
def parsePitch (s : List Char) : Option ((List Char × List Char) × List Char) :=
  match s with
  | [] => none
  | c :: rest =>
    if 'A' ≤ c ∧ c ≤ 'G' then
      let ar := parseAccidental rest
      let oct := ar.2.takeWhile isDig
      if oct = [] then none
      else some ((c :: ar.1, oct), ar.2.dropWhile isDig)
    else none

/-- The waveform alternation of the note token pattern, tried in member
order.  No recognized name is a prefix of another, so at most one branch
can match at a given position and the first match agrees with the
backtracking regex semantics. -/
def parseWaveTok (s : List Char) : Option (List Char × List Char) :=
  if "sin".toList.isPrefixOf s then some ("sin".toList, s.drop 3)
  else if "square".toList.isPrefixOf s then some ("square".toList, s.drop 6)
  else if "sawtooth".toList.isPrefixOf s then some ("sawtooth".toList, s.drop 8)
  else if "triangle".toList.isPrefixOf s then some ("triangle".toList, s.drop 8)
  else none

/-- The duration pattern: one or more digits, then optionally a dot followed
by one or more digits.  The optional group is taken only when a digit
follows the dot, as under regex backtracking. -/
def parseDur (s : List Char) : Option (List Char × List Char) :=
  let a := s.takeWhile isDig
  let r := s.dropWhile isDig
  if a = [] then none
  else
    match r with
    | '.' :: r2 =>
      let f := r2.takeWhile isDig
      if f = [] then some (a, r)
      else some (a ++ '.' :: f, r2.dropWhile isDig)
    | _ => some (a, r)

/-- Literal dash of the token pattern: consume one leading dash. -/
def expectDash : List Char → Option (List Char)
  | [] => none
  | c :: r => if c = '-' then some r else none

/-- The full note token pattern of NoteSheet, with the prefix semantics of
re.match: any remainder after the duration group is ignored.  Returns the
four captured groups: note name, octave, waveform name, duration. -/
def matchReadNote (s : List Char) : Option (List Char × List Char × List Char × List Char) :=
  match parsePitch s with
  | none => none
  | some (pg, rest) =>
    match expectDash rest with
    | none => none
    | some r2 =>
      match parseWaveTok r2 with
      | none => none
      | some (wg, r3) =>
        match expectDash r3 with
        | none => none
        | some r4 =>
          match parseDur r4 with
          | none => none
          | some (dg, _) => some (pg.1, pg.2, wg, dg)

/-- Lowering of a delta without octaves by a semitone, from music_utils. -/
def flatDelta (d : ℤ) : ℤ :=
  (d - 1) % 12

/-- Raising of a delta without octaves by a semitone, from music_utils. -/
def sharpDelta (d : ℤ) : ℤ :=
  (d + 1) % 12

/-- Semitone deltas of the natural notes relative to A, from music_utils. -/
def natDeltas : List (List Char × ℤ) :=
  [(['A'], 0), (['B'], 2), (['C'], 3), (['D'], 5), (['E'], 7), (['F'], 8), (['G'], 10)]

/-- Merged delta dictionary: naturals, then flats, then sharps, as the dict
union in music_utils. -/
def deltasTable : List (List Char × ℤ) :=
  natDeltas ++ natDeltas.map (fun e => (e.1 ++ ['b'], flatDelta e.2))
    ++ natDeltas.map (fun e => (e.1 ++ ['#'], sharpDelta e.2))

/-- Association lookup in the delta table.  The default is never reached on
the note names produced by the pitch pattern. -/
def lookupDelta : List (List Char × ℤ) → List Char → ℤ
  | [], _ => 0
  | e :: r, k => if e.1 = k then e.2 else lookupDelta r k

/-- Numeric value of a digit string. -/
def digitsToNat (l : List Char) : ℕ :=
  l.foldl (fun a c => 10 * a + (c.toNat - Char.toNat '0')) 0

/-- Injective exponent determining the frequency of a parsed note: the
source stores 55 times the twelfth root of two raised to the power
delta plus twelve times octave minus one.  Equal exponents give equal
frequencies and distinct exponents give distinct frequencies, so this
integer serves as the exact stand-in for the frequency. -/
def noteDelta (name oct : List Char) : ℤ :=
  12 * (digitsToNat oct : ℤ) + lookupDelta deltasTable name

/-- Value of the duration group under Python float conversion. -/
def durVal (d : List Char) : ℚ :=
  let a := d.takeWhile isDig
  let r := d.dropWhile isDig
  match r with
  | '.' :: f => (digitsToNat a : ℚ) + (digitsToNat f : ℚ) / ((10 : ℚ) ^ f.length)
  | _ => (digitsToNat a : ℚ)

/-- Failure modes that score building can hit in the source: calling groups
on a failed match raises AttributeError, the dict lookup of from_name
raises KeyError, popping an empty record raises IndexError, and int on a
non numeric beat index raises ValueError. -/
inductive BuildError where
  | attributeError : BuildError
  | keyError : BuildError
  | indexError : BuildError
  | valueError : BuildError
deriving DecidableEq, Repr

/-- The from_name classmethod of Wave: indexing the name dictionary, with
KeyError on an unrecognized name. -/
def fromName (s : List Char) : Except BuildError Wave :=
  if s = "sin".toList then .ok .sin
  else if s = "square".toList then .ok .square
  else if s = "sawtooth".toList then .ok .sawtooth
  else if s = "triangle".toList then .ok .triangle
  else .error .keyError

/-- Parsing of one note string inside set_notes: match the token pattern,
then build the ReadNote from the groups via the Note class and from_name. -/
def parseNoteStrL (s : List Char) : Except BuildError ReadNote :=
  match matchReadNote s with
  | none => .error .attributeError
  | some (ng, og, wg, dg) =>
    match fromName wg with
    | .error e => .error e
    | .ok w => .ok ⟨(noteDelta ng og : ℚ), durVal dg, w⟩

/-- String entry point of the note parser. -/
def parseNoteStr (s : String) : Except BuildError ReadNote :=
  parseNoteStrL s.toList

/-- Sequential parsing of the note strings of one beat record, stopping at
the first failure as the source loop does. -/
def parseBeatNotes : List String → Except BuildError (List ReadNote)
  | [] => .ok []
  | s :: r =>
    match parseNoteStr s with
    | .error e => .error e
    | .ok n =>
      match parseBeatNotes r with
      | .error e => .error e
      | .ok ns => .ok (n :: ns)

/-- Python int() on the beat index string: the value of a nonempty digit
string, failure otherwise.  The score format only ever presents nonnegative
integer literals here, so sign and whitespace handling of the source
conversion is not modelled. -/
def pyIntStr (s : String) : Option ℕ :=
  if s.toList ≠ [] ∧ s.toList.all isDig then some (digitsToNat s.toList) else none

/-- The loop body of NoteSheet.set_notes.  Each record first loses its head
to the pop call, the head becomes the beat index, empty beats are appended
while the running last index is below it, and then the parsed notes of the
record are appended; the running index is never advanced past the appended
beat.  The second component collects the records as the caller sees them
after the call, that is, after the destructive pop. -/
def setNotesGo (lastIndex : ℕ) :
    List (List String) → Except BuildError (List (List ReadNote) × List (List String))
  | [] => .ok ([], [])
  | beat :: rest =>
    match beat with
    | [] => .error .indexError
    | hd :: tl =>
      match pyIntStr hd with
      | none => .error .valueError
      | some beatIndex =>
        match parseBeatNotes tl with
        | .error e => .error e
        | .ok ns =>
          match setNotesGo (max lastIndex beatIndex) rest with
          | .error e => .error e
          | .ok (sheet, recs) =>
            .ok (List.replicate (beatIndex - lastIndex) [] ++ ns :: sheet, tl :: recs)

/-- The set_notes method of NoteSheet, starting from last index zero. -/
def setNotes (records : List (List String)) :
    Except BuildError (List (List ReadNote) × List (List String)) :=
  setNotesGo 0 records

/-- Digit strings, used by the declarative grammar below. -/
def digitsOnly (l : List Char) : Prop :=
  ∀ c ∈ l, isDig c = true

/-- Declarative pitch grammar of the spec: a letter from A to G, an optional
accidental, and a nonempty octave digit string. -/
def PitchTok (p : List Char) : Prop :=
  ∃ c acc oct, p = c :: (acc ++ oct) ∧ 'A' ≤ c ∧ c ≤ 'G' ∧
    (acc = [] ∨ acc = ['#'] ∨ acc = ['b']) ∧ oct ≠ [] ∧ digitsOnly oct

/-- Declarative waveform grammar of the spec: one of the four names. -/
def WaveTok (w : List Char) : Prop :=
  w = "sin".toList ∨ w = "square".toList ∨ w = "sawtooth".toList ∨ w = "triangle".toList

/-- Declarative duration grammar of the spec: digits with an optional
fractional part. -/
def DurTok (d : List Char) : Prop :=
  ∃ a b, d = a ++ b ∧ a ≠ [] ∧ digitsOnly a ∧
    (b = [] ∨ ∃ f, b = '.' :: f ∧ f ≠ [] ∧ digitsOnly f)

/-- Modelled from the spec: a whole note string of the shape pitch, dash,
waveform, dash, duration, with nothing after the duration.  This is the
grammar as the spec words it, used to compare against the prefix semantics
of the source. -/
def FullNoteTok (s : List Char) : Prop :=
  ∃ p w d, s = p ++ '-' :: (w ++ '-' :: d) ∧ PitchTok p ∧ WaveTok w ∧ DurTok d

/-- A string that begins with a grammatical note token, possibly followed by
arbitrary characters: the prefix semantics the source regex actually has. -/
def LeadingNoteTok (s : List Char) : Prop :=
  ∃ p w d rest, s = p ++ '-' :: (w ++ '-' :: (d ++ rest)) ∧ PitchTok p ∧ WaveTok w ∧ DurTok d

/-- Rising branch of the triangle generator at phase pi times q.  The source
expression is the quantity two times t minus half pi, reduced modulo two pi,
divided by pi, minus one; at t equal to pi times q this equals two times the
fractional part of q minus one half, minus one, using that a real of the
form two pi x reduced modulo two pi is two pi times the fractional part
of x. -/
def upTPi (q : ℚ) : ℚ :=
  2 * Int.fract (q - 1 / 2) - 1

/-- Falling branch of the triangle generator at phase pi times q, reduced
the same way from the source expression with the sign of the ramp
reversed. -/
def downTPi (q : ℚ) : ℚ :=
  2 * Int.fract (1 / 2 - q) - 1

/-- The triangle generator of music_utils evaluated at phase pi times q.
The numpy where condition zero less than cosine of pi q holds exactly when
q lies strictly between two k minus one half and two k plus one half for
some integer k, which is equivalent to the fractional part of the quantity
q plus one half, over two, lying strictly between zero and one half.  At
the zeros of the cosine the strict comparison fails and the falling branch
is taken, as in the source. -/
def trianglePi (q : ℚ) : ℚ :=
  if 0 < Int.fract ((q + 1 / 2) / 2) ∧ Int.fract ((q + 1 / 2) / 2) < 1 / 2 then upTPi q
  else downTPi q

/-- Lookup after replacing a present key yields the new value. -/
theorem lookupQ_replaceKey (q : Queue) (k : Sound) (v : QEntry)
    (h : containsKeyQ q k = true) : lookupQ (replaceKey q k v) k = some v := by
  induction q with
  | nil => simp [containsKeyQ] at h
  | cons e r ih =>
    by_cases hk : e.1 = k
    · simp [replaceKey, hk, lookupQ]
    · simp only [containsKeyQ, if_neg hk] at h
      simp [replaceKey, hk, lookupQ, ih h]

/-- Lookup after appending an absent key yields the new value. -/
theorem lookupQ_append_new (q : Queue) (k : Sound) (v : QEntry)
    (h : containsKeyQ q k = false) : lookupQ (q ++ [(k, v)]) k = some v := by
  induction q with
  | nil => simp [lookupQ]
  | cons e r ih =>
    by_cases hk : e.1 = k
    · simp [containsKeyQ, hk] at h
    · simp only [containsKeyQ, if_neg hk] at h
      simp [lookupQ, hk, ih h]

/-- Dict assignment followed by lookup of the same key yields the assigned
value. -/
theorem lookupQ_insertOrReplace (q : Queue) (k : Sound) (v : QEntry) :
    lookupQ (insertOrReplace q k v) k = some v := by
  unfold insertOrReplace
  by_cases h : containsKeyQ q k = true
  · simp [h, lookupQ_replaceKey q k v h]
  · simp only [Bool.not_eq_true] at h
    simp [h, lookupQ_append_new q k v h]

/-- C1 (corrected).  When a sound stays active across two consecutive
ticks, the phase array of the later tick is the last phase value of the
earlier array plus the base array scaled by frequency over sample rate;
its entry k is last plus two k times frequency over sample rate (in units
of pi), so the array begins exactly at the last phase value of the earlier
tick, with no extra sample step, and the gain is smoothed. -/
theorem claim1_theorem (oldQ : Queue) (sf : ℚ) (n : ℕ) (s : Sound)
    (e : Sound × QEntry) (nq : Queue) (h : findSound oldQ s = some e) :
    lookupQ (addSoundToQueue oldQ sf n s nq) e.1 =
      some ((List.range n).map (fun (k : ℕ) => pyLast e.2.1 + 2 * (k : ℚ) * s.note / sf),
        (e.2.2 + 1) / 2) ∧
    (0 < n →
      ((List.range n).map
        (fun (k : ℕ) => pyLast e.2.1 + 2 * (k : ℚ) * s.note / sf)).head? =
        some (pyLast e.2.1)) := by
  constructor
  · simp only [addSoundToQueue, h]
    have harr : (baseFunc n).map (fun b => pyLast e.2.1 + b * s.note / sf) =
        (List.range n).map (fun (k : ℕ) => pyLast e.2.1 + 2 * (k : ℚ) * s.note / sf) := by
      unfold baseFunc
      rw [List.map_map]
      refine List.map_congr_left ?_
      intro k _
      simp only [Function.comp]
    rw [harr]
    exact lookupQ_insertOrReplace nq e.1 _
  · intro hn
    obtain ⟨m, rfl⟩ := Nat.exists_eq_succ_of_ne_zero (Nat.pos_iff_ne_zero.mp hn)
    rw [List.range_succ_eq_map]
    simp

/-- C1 counterexample data.  With sample rate two, buffer size two and a
sound of frequency one, the earlier tick stores the phase array with last
value one; after the queue update the later array begins at one, while the
claim predicts beginning at the last value plus one sample step, which is
two. -/
theorem claim1_counterexample :
    (lookupQ (addSoundToQueue [(⟨1, Wave.sin⟩, ([0, 1], 1/10))] 2 2 ⟨1, Wave.sin⟩ [])
        ⟨1, Wave.sin⟩).map (fun v => v.1.head?) = some (some 1) ∧
    pyLast [0, 1] + 2 * (1 : ℚ) * 1 / 2 = 2 ∧ (1 : ℚ) ≠ 2 := by
  refine ⟨?_, by norm_num [pyLast], by norm_num⟩
  norm_num [addSoundToQueue, findSound, insertOrReplace, containsKeyQ, lookupQ, baseFunc,
    List.range_succ, pyLast]

/-- C1 witness: the amended phase continuation evaluated on the concrete
queue of the counterexample. -/
theorem claim1_witness :
    findSound [(⟨1, Wave.sin⟩, ([0, 1], 1/10))] ⟨1, Wave.sin⟩ =
      some (⟨1, Wave.sin⟩, ([0, 1], 1/10)) ∧
    lookupQ (addSoundToQueue [(⟨1, Wave.sin⟩, ([0, 1], 1/10))] 2 2 ⟨1, Wave.sin⟩ [])
        ⟨1, Wave.sin⟩ =
      some ((List.range 2).map (fun (k : ℕ) => pyLast [0, 1] + 2 * (k : ℚ) * 1 / 2),
        (1/10 + 1) / 2) :=
  ⟨by simp [findSound],
    (claim1_theorem [(⟨1, Wave.sin⟩, ([0, 1], 1/10))] 2 2 ⟨1, Wave.sin⟩
      (⟨1, Wave.sin⟩, ([0, 1], 1/10)) [] (by simp [findSound])).1⟩

/-- Gain values stay strictly below one. -/
theorem gainSeq_lt_one (k : ℕ) : gainSeq k < 1 := by
  induction k with
  | zero => norm_num [gainSeq]
  | succ m ih =>
    simp only [gainSeq]
    linarith

/-- C6 (confirmed).  The per tick gain of a sustained sound starts at one
tenth, each tick applies the smoothing step of _add_sound_to_queue, the
first four values are one tenth, eleven twentieths, thirty one fortieths
and seventy one eightieths, the sequence is strictly increasing, bounded by
one and never equal to one; a sound found in the old queue gets the
smoothed gain and a fresh sound gets the starting gain. -/
theorem claim6_theorem :
    gainSeq 0 = 1/10 ∧ gainSeq 1 = 11/20 ∧ gainSeq 2 = 31/40 ∧ gainSeq 3 = 71/80 ∧
    (∀ k, gainSeq k < gainSeq (k + 1)) ∧ (∀ k, gainSeq k < 1) ∧
    (∀ (oldQ : Queue) (sf : ℚ) (n : ℕ) (s : Sound) (e : Sound × QEntry) (nq : Queue),
      findSound oldQ s = some e →
      (lookupQ (addSoundToQueue oldQ sf n s nq) e.1).map (fun v => v.2) =
        some ((e.2.2 + 1) / 2)) ∧
    (∀ (oldQ : Queue) (sf : ℚ) (n : ℕ) (s : Sound),
      findSound oldQ s = none →
      (lookupQ (addSoundToQueue oldQ sf n s []) s).map (fun v => v.2) = some (gainSeq 0)) := by
  refine ⟨by norm_num [gainSeq], by norm_num [gainSeq], by norm_num [gainSeq],
    by norm_num [gainSeq], ?_, gainSeq_lt_one, ?_, ?_⟩
  · intro k
    have h := gainSeq_lt_one k
    simp only [gainSeq]
    linarith
  · intro oldQ sf n s e nq h
    simp only [addSoundToQueue, h]
    rw [lookupQ_insertOrReplace]
    simp
  · intro oldQ sf n s h
    simp only [addSoundToQueue, h]
    rw [lookupQ_insertOrReplace]
    simp [gainSeq]

/-- C6 witness: concrete instances of the quantified parts, on the queue of
the phase continuation example. -/
theorem claim6_witness :
    gainSeq 4 < gainSeq 5 ∧ gainSeq 4 < 1 ∧
    findSound [(⟨1, Wave.sin⟩, ([0, 1], 1/10))] ⟨1, Wave.sin⟩ =
      some (⟨1, Wave.sin⟩, ([0, 1], 1/10)) ∧
    (lookupQ (addSoundToQueue [(⟨1, Wave.sin⟩, ([0, 1], 1/10))] 2 2 ⟨1, Wave.sin⟩ [])
        ⟨1, Wave.sin⟩).map (fun v => v.2) = some ((1/10 + 1) / 2) :=
  ⟨claim6_theorem.2.2.2.2.1 4, claim6_theorem.2.2.2.2.2.1 4, by simp [findSound],
    claim6_theorem.2.2.2.2.2.2.1 [(⟨1, Wave.sin⟩, ([0, 1], 1/10))] 2 2 ⟨1, Wave.sin⟩
      (⟨1, Wave.sin⟩, ([0, 1], 1/10)) [] (by simp [findSound])⟩

/-- C9 counterexample data.  At sample rate ten and buffer duration
nineteen hundredths the product is one point nine; the constructor stores
one, while rounding to the nearest integer gives two. -/
theorem claim9_counterexample :
    (playerInit 10 (19/100)).bufferSize = 1 ∧ round ((19 : ℚ)/100 * 10) = 2 ∧
    (playerInit 10 (19/100)).bufferSize ≠ round ((19 : ℚ)/100 * 10) := by
  refine ⟨?_, ?_, ?_⟩ <;> norm_num [playerInit, pyIntQ, round_eq]

/-- C9 (corrected).  The stored buffer sample count is the truncation of
buffer duration times sample rate, which for the nonnegative durations of
engine construction is the floor, not the nearest integer. -/
theorem claim9_theorem (sf : ℕ) (d : ℚ) (hd : 0 ≤ d) :
    (playerInit sf d).bufferSize = ⌊d * (sf : ℚ)⌋ := by
  have h : 0 ≤ d * (sf : ℚ) := mul_nonneg hd (by positivity)
  simp [playerInit, pyIntQ, h]

/-- C9 witness: the floor characterization at the counterexample input. -/
theorem claim9_witness :
    0 ≤ (19 : ℚ)/100 ∧ (playerInit 10 (19/100)).bufferSize = ⌊(19 : ℚ)/100 * (10 : ℚ)⌋ :=
  ⟨by norm_num, claim9_theorem 10 (19/100) (by norm_num)⟩

/-- Elementwise sum of two bounded arrays is bounded by the sum of the
bounds. -/
theorem zipWith_add_bound (a : List ℚ) :
    ∀ (c : List ℚ) (b : ℚ), (∀ x ∈ a, |x| ≤ b) → (∀ x ∈ c, |x| ≤ 1) →
    ∀ x ∈ List.zipWith (· + ·) a c, |x| ≤ b + 1 := by
  induction a with
  | nil => intro c b _ _ x hx; simp at hx
  | cons y ys ih =>
    intro c b ha hc x hx
    cases c with
    | nil => simp at hx
    | cons z zs =>
      simp only [List.zipWith_cons_cons, List.mem_cons] at hx
      rcases hx with rfl | hx
      · have h1 : |y| ≤ b := ha y (List.mem_cons_self y ys)
        have h2 : |z| ≤ 1 := hc z (List.mem_cons_self z zs)
        calc |y + z| ≤ |y| + |z| := abs_add y z
          _ ≤ b + 1 := by linarith
      · exact ih zs b (fun x hx => ha x (List.mem_cons_of_mem y hx))
          (fun x hx => hc x (List.mem_cons_of_mem z hx)) x hx

/-- Folding elementwise sums over a list of arrays bounded by one adds at
most the number of arrays to the bound. -/
theorem foldl_zipWith_bound (cs : List (List ℚ)) :
    ∀ (a : List ℚ) (b : ℚ), (∀ x ∈ a, |x| ≤ b) → (∀ c ∈ cs, ∀ x ∈ c, |x| ≤ 1) →
    ∀ x ∈ cs.foldl (fun acc l => List.zipWith (· + ·) acc l) a, |x| ≤ b + (cs.length : ℚ) := by
  induction cs with
  | nil => intro a b ha _ x hx; simpa using ha x hx
  | cons c cr ih =>
    intro a b ha hc x hx
    simp only [List.foldl_cons] at hx
    have hstep : ∀ x ∈ List.zipWith (· + ·) a c, |x| ≤ b + 1 :=
      zipWith_add_bound a c b ha (hc c (List.mem_cons_self c cr))
    have := ih (List.zipWith (· + ·) a c) (b + 1) hstep
      (fun l hl => hc l (List.mem_cons_of_mem c hl)) x hx
    have hlen : ((c :: cr).length : ℚ) = (cr.length : ℚ) + 1 := by
      push_cast [List.length_cons]
      ring
    rw [hlen]
    linarith

/-- C5 (confirmed).  The exported buffer is the arithmetic mean of the per
sound sample arrays: with at least one active sound the divisor is the
number of sounds, whenever every component sample lies between minus one
and one every mixed sample lies between minus one and one, and an empty
registry yields the all zero buffer. -/
theorem claim5_theorem :
    (∀ (wf : Wave → ℚ → ℚ) (n : ℕ) (e : Sound × QEntry) (q : Queue),
      exportBuffer wf n (e :: q) =
        (sumArrays ((e :: q).map fun e2 => e2.2.1.map fun p => wf e2.1.waveform p * e2.2.2)).map
          (fun x => x / (((e :: q).length : ℚ)))) ∧
    (∀ (wf : Wave → ℚ → ℚ) (n : ℕ) (q : Queue),
      (∀ e ∈ q, ∀ p ∈ e.2.1, |wf e.1.waveform p * e.2.2| ≤ 1) →
      ∀ x ∈ exportBuffer wf n q, |x| ≤ 1) ∧
    (∀ (wf : Wave → ℚ → ℚ) (n : ℕ), exportBuffer wf n [] = List.replicate n 0) := by
  refine ⟨?_, ?_, ?_⟩
  · intro wf n e q
    simp [exportBuffer, mixComponents]
  · intro wf n q hq x hx
    cases q with
    | nil =>
      simp [exportBuffer, mixComponents] at hx
      rcases hx with ⟨_, rfl⟩
      norm_num
    | cons e q =>
      simp only [exportBuffer, mixComponents, List.map_cons, List.mem_map] at hx
      obtain ⟨y, hy, rfl⟩ := hx
      have hhead : ∀ z ∈ e.2.1.map fun p => wf e.1.waveform p * e.2.2, |z| ≤ 1 := by
        intro z hz
        simp only [List.mem_map] at hz
        obtain ⟨p, hp, rfl⟩ := hz
        exact hq e (List.mem_cons_self e q) p hp
      have htail : ∀ c ∈ q.map fun e2 => e2.2.1.map fun p => wf e2.1.waveform p * e2.2.2,
          ∀ z ∈ c, |z| ≤ 1 := by
        intro c hc z hz
        simp only [List.mem_map] at hc
        obtain ⟨e2, he2, rfl⟩ := hc
        simp only [List.mem_map] at hz
        obtain ⟨p, hp, rfl⟩ := hz
        exact hq e2 (List.mem_cons_of_mem e he2) p hp
      have hy2 := foldl_zipWith_bound _ _ 1 hhead htail y (by simpa [sumArrays] using hy)
      have hD : ((((e.2.1.map fun p => wf e.1.waveform p * e.2.2) ::
          q.map fun e2 => e2.2.1.map fun p => wf e2.1.waveform p * e2.2.2).length : ℕ) : ℚ) =
          1 + ((q.map fun e2 => e2.2.1.map fun p => wf e2.1.waveform p * e2.2.2).length : ℚ) := by
        push_cast [List.length_cons]
        ring
      have hpos : (0 : ℚ) <
          1 + ((q.map fun e2 => e2.2.1.map fun p => wf e2.1.waveform p * e2.2.2).length : ℚ) := by
        positivity
      rw [abs_div, hD, abs_of_pos hpos, div_le_one hpos]
      exact hy2
  · intro wf n
    simp [exportBuffer, mixComponents]

/-- C5 witness: a registry of one sound whose samples are constantly one is
mixed into samples bounded by one, on a concrete two sample buffer. -/
theorem claim5_witness :
    (∀ e ∈ ([(⟨1, Wave.sin⟩, ([0, 2], 1))] : Queue), ∀ p ∈ e.2.1,
      |(fun (_ : Wave) (_ : ℚ) => (1 : ℚ)) e.1.waveform p * e.2.2| ≤ 1) ∧
    (∀ x ∈ exportBuffer (fun _ _ => (1 : ℚ)) 2 [(⟨1, Wave.sin⟩, ([0, 2], 1))], |x| ≤ 1) :=
  ⟨by norm_num, claim5_theorem.2.1 (fun _ _ => (1 : ℚ)) 2 [(⟨1, Wave.sin⟩, ([0, 2], 1))]
    (by norm_num)⟩

/-- Fractional part through an integer shift, for arguments landing in the
unit interval. -/
theorem fract_eq_of_shift (y x : ℚ) (m : ℤ) (h : y = x + (m : ℚ))
    (hx0 : 0 ≤ x) (hx1 : x < 1) : Int.fract y = x := by
  rw [h, Int.fract_add_int]
  exact Int.fract_eq_self.mpr ⟨hx0, hx1⟩

/-- Evaluation of the rising triangle branch when the shifted argument
lands in the unit interval. -/
theorem upTPi_eval (q x : ℚ) (m : ℤ) (h : q - 1/2 = x + (m : ℚ))
    (hx0 : 0 ≤ x) (hx1 : x < 1) : upTPi q = 2 * x - 1 := by
  unfold upTPi
  rw [fract_eq_of_shift _ x m h hx0 hx1]

/-- Evaluation of the falling triangle branch when the shifted argument
lands in the unit interval. -/
theorem downTPi_eval (q x : ℚ) (m : ℤ) (h : 1/2 - q = x + (m : ℚ))
    (hx0 : 0 ≤ x) (hx1 : x < 1) : downTPi q = 2 * x - 1 := by
  unfold downTPi
  rw [fract_eq_of_shift _ x m h hx0 hx1]

/-- C7 (corrected).  Near the seam phases pi times one half plus k pi the
triangle generator behaves as follows, for any offset delta pi with delta
strictly between zero and one half: at the trough seams, odd k, the value
is minus one and both sides evaluate to minus one plus two delta, so the
ramp meets its one sided limits there; at the peak seams, even k, both
sides evaluate to one minus two delta, approaching one, while the seam
value itself is minus one, a jump of height two.  Phases are in units of
pi, so the argument one half plus m stands for the phase pi over two plus
m pi. -/
theorem claim7_theorem (k : ℤ) (δ : ℚ) (h0 : 0 < δ) (h1 : δ < 1/2) :
    (trianglePi (1/2 + 2*(k:ℚ)) = -1 ∧
     trianglePi (1/2 + 2*(k:ℚ) - δ) = 1 - 2*δ ∧
     trianglePi (1/2 + 2*(k:ℚ) + δ) = 1 - 2*δ) ∧
    (trianglePi (1/2 + (2*(k:ℚ)+1)) = -1 ∧
     trianglePi (1/2 + (2*(k:ℚ)+1) - δ) = -1 + 2*δ ∧
     trianglePi (1/2 + (2*(k:ℚ)+1) + δ) = -1 + 2*δ) := by
  refine ⟨⟨?_, ?_, ?_⟩, ⟨?_, ?_, ?_⟩⟩
  · have hcond : Int.fract ((1/2 + 2*(k:ℚ) + 1/2) / 2) = 1/2 :=
      fract_eq_of_shift _ (1/2) k (by ring) (by norm_num) (by norm_num)
    simp only [trianglePi, hcond]
    rw [if_neg (by rintro ⟨_, hlt⟩; linarith)]
    have hd := downTPi_eval (1/2 + 2*(k:ℚ)) 0 (-2*k) (by push_cast; ring)
      (by norm_num) (by norm_num)
    rw [hd]; ring
  · have hcond : Int.fract ((1/2 + 2*(k:ℚ) - δ + 1/2) / 2) = (1 - δ)/2 :=
      fract_eq_of_shift _ ((1 - δ)/2) k (by ring) (by linarith) (by linarith)
    simp only [trianglePi, hcond]
    rw [if_pos ⟨by linarith, by linarith⟩]
    have hu := upTPi_eval (1/2 + 2*(k:ℚ) - δ) (1 - δ) (2*k - 1) (by push_cast; ring)
      (by linarith) (by linarith)
    rw [hu]; ring
  · have hcond : Int.fract ((1/2 + 2*(k:ℚ) + δ + 1/2) / 2) = (1 + δ)/2 :=
      fract_eq_of_shift _ ((1 + δ)/2) k (by ring) (by linarith) (by linarith)
    simp only [trianglePi, hcond]
    rw [if_neg (by rintro ⟨_, hlt⟩; linarith)]
    have hd := downTPi_eval (1/2 + 2*(k:ℚ) + δ) (1 - δ) (-2*k - 1) (by push_cast; ring)
      (by linarith) (by linarith)
    rw [hd]; ring
  · have hcond : Int.fract ((1/2 + (2*(k:ℚ)+1) + 1/2) / 2) = 0 :=
      fract_eq_of_shift _ 0 (k + 1) (by push_cast; ring) (by norm_num) (by norm_num)
    simp only [trianglePi, hcond]
    rw [if_neg (by rintro ⟨hgt, _⟩; linarith)]
    have hd := downTPi_eval (1/2 + (2*(k:ℚ)+1)) 0 (-2*k - 1) (by push_cast; ring)
      (by norm_num) (by norm_num)
    rw [hd]; ring
  · have hcond : Int.fract ((1/2 + (2*(k:ℚ)+1) - δ + 1/2) / 2) = 1 - δ/2 :=
      fract_eq_of_shift _ (1 - δ/2) k (by ring) (by linarith) (by linarith)
    simp only [trianglePi, hcond]
    rw [if_neg (by rintro ⟨_, hlt⟩; linarith)]
    have hd := downTPi_eval (1/2 + (2*(k:ℚ)+1) - δ) δ (-2*k - 1) (by push_cast; ring)
      (by linarith) (by linarith)
    rw [hd]; ring
  · have hcond : Int.fract ((1/2 + (2*(k:ℚ)+1) + δ + 1/2) / 2) = δ/2 :=
      fract_eq_of_shift _ (δ/2) (k + 1) (by push_cast; ring) (by linarith) (by linarith)
    simp only [trianglePi, hcond]
    rw [if_pos ⟨by linarith, by linarith⟩]
    have hu := upTPi_eval (1/2 + (2*(k:ℚ)+1) + δ) δ (2*k + 1) (by push_cast; ring)
      (by linarith) (by linarith)
    rw [hu]; ring

/-- C7 counterexample data.  If the triangle generator agreed with its one
sided limits at every seam, then on both sides of every seam the distance
of the value from the seam value would be twice the offset; at the peak
seam k equal zero with offset one quarter pi this fails: the side value is
one half, the seam value is minus one, their distance is three halves and
not one half. -/
theorem claim7_counterexample :
    ¬ (∀ (k : ℤ) (δ : ℚ), 0 < δ → δ < 1/2 →
      |trianglePi (1/2 + (k:ℚ) + δ) - trianglePi (1/2 + (k:ℚ))| = 2 * δ ∧
      |trianglePi (1/2 + (k:ℚ) - δ) - trianglePi (1/2 + (k:ℚ))| = 2 * δ) := by
  intro h
  have h2 := (h 0 (1/4) (by norm_num) (by norm_num)).1
  have e1 : trianglePi (1/2 + ((0:ℤ):ℚ) + 1/4) = 1/2 := by
    norm_num [trianglePi, upTPi, downTPi, Int.fract]
  have e2 : trianglePi (1/2 + ((0:ℤ):ℚ)) = -1 := by
    norm_num [trianglePi, upTPi, downTPi, Int.fract]
  rw [e1, e2] at h2
  rw [abs_of_pos (by norm_num : (0:ℚ) < 1/2 - (-1))] at h2
  norm_num at h2

/-- C7 witness: the seam description evaluated at k equal one and offset
one quarter. -/
theorem claim7_witness :
    0 < (1:ℚ)/4 ∧ (1:ℚ)/4 < 1/2 ∧
    trianglePi (1/2 + 2*((1:ℤ):ℚ)) = -1 ∧
    trianglePi (1/2 + 2*((1:ℤ):ℚ) + 1/4) = 1 - 2*(1/4) :=
  ⟨by norm_num, by norm_num,
    (claim7_theorem 1 (1/4) (by norm_num) (by norm_num)).1.1,
    (claim7_theorem 1 (1/4) (by norm_num) (by norm_num)).1.2.2⟩

/-- Error kind of a failed build step, for stating concrete error results. -/
def buildErrOf {α : Type} : Except BuildError α → Option BuildError
  | .error e => some e
  | .ok _ => none

/-- On every successful run of the set_notes loop the surviving records are
the tails of the records passed in, whatever the running index is. -/
theorem setNotesGo_recs (records : List (List String)) : ∀ (lastIndex : ℕ)
    (res : List (List ReadNote) × List (List String)),
    setNotesGo lastIndex records = .ok res → res.2 = records.map List.tail := by
  induction records with
  | nil =>
    intro lastIndex res h
    simp only [setNotesGo, Except.ok.injEq] at h
    rw [← h]
    simp
  | cons beat rest ih =>
    intro lastIndex res h
    cases beat with
    | nil => simp [setNotesGo] at h
    | cons hd tl =>
      simp only [setNotesGo] at h
      split at h
      · simp at h
      · split at h
        · simp at h
        · split at h
          · simp at h
          · rename_i bi hpi ns hpb sheet recs hgo
            simp only [Except.ok.injEq] at h
            rw [← h]
            simp only [List.map_cons, List.tail_cons]
            exact congrArg (tl :: ·) (ih _ (sheet, recs) hgo)

/-- C10 (confirmed).  Whenever set_notes succeeds, every record list held by
the caller has lost its first element: the loop pops the leading beat index
off each record before parsing the remaining note strings. -/
theorem claim10_theorem (records : List (List String))
    (res : List (List ReadNote) × List (List String))
    (h : setNotes records = .ok res) : res.2 = records.map List.tail :=
  setNotesGo_recs records 0 res h

/-- C10 witness: two records holding only their beat indices lose their
heads and become empty lists. -/
theorem claim10_witness :
    setNotes [["0"], ["2"]] =
      Except.ok (([[], [], [], []] : List (List ReadNote)), ([[], []] : List (List String))) ∧
    ([[], []] : List (List String)) = [["0"], ["2"]].map List.tail :=
  ⟨by rfl, claim10_theorem [["0"], ["2"]] ([[], [], [], []], [[], []]) (by rfl)⟩

/-- C4 (code bug) evaluation.  Scheduling two records with beat indices
zero and one, each carrying one note, should give the two beat sheet with
note counts one and one; the code instead builds a three position sheet
with note counts one, zero and one: the record of beat one lands at
position two because the running index is never advanced past a beat that
was just filled. -/
theorem claim4_theorem :
    ((setNotes [["0", "E4-sin-1"], ["1", "E4-sin-1"]]).toOption.map
      (fun p => p.1.map List.length)) = some [1, 0, 1] ∧
    ((setNotes [["0", "E4-sin-1"], ["1", "E4-sin-1"]]).toOption.map
      (fun p => p.1.map List.length)) ≠ some [1, 1] := by
  exact ⟨by decide, by decide⟩

/-- Greedy digit scanning splits an all digit block followed by a non digit
character exactly at that character. -/
theorem takeWhile_all_append (p : Char → Bool) (a : List Char) (c : Char) (r : List Char)
    (ha : ∀ x ∈ a, p x = true) (hc : p c = false) :
    (a ++ c :: r).takeWhile p = a ∧ (a ++ c :: r).dropWhile p = c :: r := by
  induction a with
  | nil => simp [List.takeWhile_cons, List.dropWhile_cons, hc]
  | cons x xs ih =>
    have hx : p x = true := ha x (List.mem_cons_self x xs)
    have := ih (fun y hy => ha y (List.mem_cons_of_mem x hy))
    simp [List.takeWhile_cons, List.dropWhile_cons, hx, this]

/-- Every character kept by the digit scan is a digit. -/
theorem digitsOnly_takeWhile (l : List Char) : digitsOnly (l.takeWhile isDig) := by
  induction l with
  | nil => intro c hc; simp at hc
  | cons x xs ih =>
    intro c hc
    rw [List.takeWhile_cons] at hc
    by_cases hx : isDig x = true
    · simp only [hx, if_true] at hc
      rcases List.mem_cons.mp hc with rfl | hc2
      · exact hx
      · exact ih c hc2
    · simp only [Bool.not_eq_true] at hx
      simp [hx] at hc

/-- A successful prefix test provides the append decomposition. -/
theorem isPrefixOf_parts : ∀ (a b : List Char), a.isPrefixOf b = true → ∃ t, b = a ++ t := by
  intro a
  induction a with
  | nil => exact fun b _ => ⟨b, rfl⟩
  | cons x xs ih =>
    intro b h
    cases b with
    | nil => simp [List.isPrefixOf] at h
    | cons y ys =>
      simp only [List.isPrefixOf, Bool.and_eq_true, beq_iff_eq] at h
      obtain ⟨t, ht⟩ := ih ys h.2
      exact ⟨t, by rw [ht, h.1]; simp⟩

/-- The last character of a nonempty digit block, possibly extended by a
dot and a second digit block, is a digit. -/
theorem digits_getLast : ∀ (l : List Char), digitsOnly l → ∀ c, l.getLast? = some c →
    isDig c = true := by
  intro l
  induction l with
  | nil => intro _ c h; simp at h
  | cons x xs ih =>
    intro hdig c h
    cases xs with
    | nil =>
      simp [List.getLast?] at h
      rw [← h]
      exact hdig x (List.mem_cons_self x [])
    | cons y ys =>
      rw [List.getLast?_cons_cons] at h
      exact ih (fun z hz => hdig z (List.mem_cons_of_mem x hz)) c h

/-- Soundness of the accidental stage: the consumed part is empty or a
single accidental, and the input is recovered by appending. -/
theorem parseAccidental_sound (r acc r1 : List Char) (h : parseAccidental r = (acc, r1)) :
    (acc = [] ∨ acc = ['#'] ∨ acc = ['b']) ∧ r = acc ++ r1 := by
  cases r with
  | nil =>
    simp only [parseAccidental, Prod.mk.injEq] at h
    rcases h with ⟨rfl, rfl⟩
    simp
  | cons c rest =>
    simp only [parseAccidental] at h
    split at h
    · rename_i hc
      simp only [Prod.mk.injEq] at h
      rcases h with ⟨rfl, rfl⟩
      rcases hc with rfl | rfl
      · exact ⟨Or.inr (Or.inl rfl), rfl⟩
      · exact ⟨Or.inr (Or.inr rfl), rfl⟩
    · simp only [Prod.mk.injEq] at h
      rcases h with ⟨rfl, rfl⟩
      simp

/-- Soundness of the pitch stage: a successful match yields a grammatical
pitch token and the append decomposition of the input. -/
theorem parsePitch_sound (s ng og r : List Char)
    (h : parsePitch s = some ((ng, og), r)) :
    PitchTok (ng ++ og) ∧ s = (ng ++ og) ++ r := by
  cases s with
  | nil => simp [parsePitch] at h
  | cons c rest =>
    simp only [parsePitch] at h
    split at h
    · rename_i hAG
      rcases hpa : parseAccidental rest with ⟨acc, r1⟩
      rw [hpa] at h
      simp only at h
      split at h
      · simp at h
      · rename_i hoct
        simp only [Option.some.injEq, Prod.mk.injEq] at h
        obtain ⟨⟨hng, hog⟩, hr⟩ := h
        obtain ⟨haccs, hrest⟩ := parseAccidental_sound rest acc r1 hpa
        have hsplit := List.takeWhile_append_dropWhile (p := isDig) (l := r1)
        constructor
        · refine ⟨c, acc, og, ?_, hAG.1, hAG.2, haccs, ?_, ?_⟩
          · rw [← hng, ← hog]
            simp
          · rw [← hog]; exact hoct
          · rw [← hog]; exact digitsOnly_takeWhile r1
        · rw [← hng, ← hog, ← hr, hrest]
          simp only [List.cons_append, List.append_assoc]
          rw [hsplit]
    · simp at h

/-- Completeness of the pitch stage on an input beginning with a
grammatical pitch token followed by a dash. -/
theorem parsePitch_complete (c : Char) (acc oct t : List Char)
    (hc1 : 'A' ≤ c) (hc2 : c ≤ 'G') (hacc : acc = [] ∨ acc = ['#'] ∨ acc = ['b'])
    (hoct : oct ≠ []) (hdig : digitsOnly oct) :
    parsePitch (c :: (acc ++ (oct ++ '-' :: t))) = some ((c :: acc, oct), '-' :: t) := by
  have hscan := takeWhile_all_append isDig oct '-' t hdig (by decide)
  have haccstep : parseAccidental (acc ++ (oct ++ '-' :: t)) = (acc, oct ++ '-' :: t) := by
    rcases hacc with rfl | rfl | rfl
    · cases oct with
      | nil => exact absurd rfl hoct
      | cons o os =>
        have ho : isDig o = true := hdig o (List.mem_cons_self o os)
        have h1 : ¬ (o = '#' ∨ o = 'b') := by
          rintro (rfl | rfl) <;> simp [isDig] at ho
        simp [parseAccidental, h1]
    · simp [parseAccidental]
    · simp [parseAccidental]
  simp only [parsePitch, if_pos (And.intro hc1 hc2), haccstep, hscan.1, hscan.2,
    if_neg hoct]

/-- Soundness of the waveform stage: the matched group is one of the four
names and the input decomposes around it. -/
theorem parseWaveTok_sound (s wg r : List Char) (h : parseWaveTok s = some (wg, r)) :
    WaveTok wg ∧ s = wg ++ r := by
  unfold parseWaveTok at h
  split at h
  · rename_i h1
    simp only [Option.some.injEq, Prod.mk.injEq] at h
    obtain ⟨rfl, rfl⟩ := h
    obtain ⟨t, ht⟩ := isPrefixOf_parts _ _ h1
    refine ⟨Or.inl rfl, ?_⟩
    rw [ht]
    simp
  · split at h
    · rename_i h1
      simp only [Option.some.injEq, Prod.mk.injEq] at h
      obtain ⟨rfl, rfl⟩ := h
      obtain ⟨t, ht⟩ := isPrefixOf_parts _ _ h1
      refine ⟨Or.inr (Or.inl rfl), ?_⟩
      rw [ht]
      simp
    · split at h
      · rename_i h1
        simp only [Option.some.injEq, Prod.mk.injEq] at h
        obtain ⟨rfl, rfl⟩ := h
        obtain ⟨t, ht⟩ := isPrefixOf_parts _ _ h1
        refine ⟨Or.inr (Or.inr (Or.inl rfl)), ?_⟩
        rw [ht]
        simp
      · split at h
        · rename_i h1
          simp only [Option.some.injEq, Prod.mk.injEq] at h
          obtain ⟨rfl, rfl⟩ := h
          obtain ⟨t, ht⟩ := isPrefixOf_parts _ _ h1
          refine ⟨Or.inr (Or.inr (Or.inr rfl)), ?_⟩
          rw [ht]
          simp
        · simp at h

/-- Completeness of the waveform stage: each recognized name followed by a
dash is matched as that name.  Since no recognized name is a prefix of
another, the branch order cannot intercept a later name. -/
theorem parseWaveTok_complete (w t : List Char) (hw : WaveTok w) :
    parseWaveTok (w ++ '-' :: t) = some (w, '-' :: t) := by
  rcases hw with rfl | rfl | rfl | rfl
  · rfl
  · rfl
  · rfl
  · rfl

/-- A duration beginning with a digit is always matched. -/
theorem parseDur_isSome (s : List Char) (c : Char) (hc : s.head? = some c)
    (hd : isDig c = true) : (parseDur s).isSome = true := by
  cases s with
  | nil => simp at hc
  | cons x xs =>
    simp only [List.head?_cons, Option.some.injEq] at hc
    subst hc
    have hne : (x :: xs).takeWhile isDig ≠ [] := by
      rw [List.takeWhile_cons, if_pos hd]
      simp
    unfold parseDur
    simp only [if_neg hne]
    split
    · split <;> simp
    · simp

/-- Any successfully matched duration input begins with a nonempty digit
block. -/
theorem parseDur_sound (s : List Char) (h : (parseDur s).isSome = true) :
    ∃ a t, s = a ++ t ∧ a ≠ [] ∧ digitsOnly a := by
  by_cases hne : s.takeWhile isDig = []
  · unfold parseDur at h
    rw [if_pos hne] at h
    simp at h
  · exact ⟨s.takeWhile isDig, s.dropWhile isDig,
      (List.takeWhile_append_dropWhile (p := isDig) (l := s)).symm, hne,
      digitsOnly_takeWhile s⟩

/-- A dash expectation succeeds exactly by consuming a leading dash. -/
theorem expectDash_sound (r r2 : List Char) (h : expectDash r = some r2) : r = '-' :: r2 := by
  cases r with
  | nil => simp [expectDash] at h
  | cons c rest =>
    simp only [expectDash] at h
    split at h
    · rename_i hc
      simp only [Option.some.injEq] at h
      rw [hc, h]
    · simp at h

/-- A leading dash is consumed. -/
theorem expectDash_cons (t : List Char) : expectDash ('-' :: t) = some t := by
  simp [expectDash]

/-- Soundness of the whole token match: success means the input begins with
a grammatical note token, and the captured waveform group is one of the
four recognized names. -/
theorem matchReadNote_sound (s : List Char)
    (g : List Char × List Char × List Char × List Char)
    (h : matchReadNote s = some g) : LeadingNoteTok s ∧ WaveTok g.2.2.1 := by
  unfold matchReadNote at h
  split at h
  · simp at h
  · rename_i pg rest hpp
    split at h
    · simp at h
    · rename_i r2 hda
      split at h
      · simp at h
      · rename_i wg r3 hwq
        split at h
        · simp at h
        · rename_i r4 hdb
          split at h
          · simp at h
          · rename_i dg rest2 hdq
            rcases pg with ⟨ng, og⟩
            have hrest := expectDash_sound rest r2 hda
            have hr3 := expectDash_sound r3 r4 hdb
            obtain ⟨hpt, hseq⟩ := parsePitch_sound s ng og rest hpp
            obtain ⟨hwt, hweq⟩ := parseWaveTok_sound r2 wg r3 hwq
            obtain ⟨a, t2, hdeq, hane, hadig⟩ :=
              parseDur_sound r4 (by rw [hdq]; rfl)
            simp only [Option.some.injEq] at h
            constructor
            · refine ⟨ng ++ og, wg, a, t2, ?_, hpt, hwt,
                ⟨a, [], by simp, hane, hadig, Or.inl rfl⟩⟩
              rw [hseq, hrest, hweq, hr3, hdeq]
            · rw [← h]
              exact hwt

/-- Completeness of the whole token match: an input beginning with a
grammatical note token is matched. -/
theorem matchReadNote_complete (s : List Char) (h : LeadingNoteTok s) :
    (matchReadNote s).isSome = true := by
  obtain ⟨p, w, d, rest, hs, hp, hw, hd⟩ := h
  obtain ⟨c, acc, oct, hpe, hc1, hc2, hacc, hoctne, hoctdig⟩ := hp
  have hform : s = c :: (acc ++ (oct ++ '-' :: (w ++ '-' :: (d ++ rest)))) := by
    rw [hs, hpe]
    simp [List.append_assoc]
  obtain ⟨a, b, hdeq, hane, hadig, hb⟩ := hd
  obtain ⟨x, xs, hax⟩ : ∃ x xs, a = x :: xs := by
    cases a with
    | nil => exact absurd rfl hane
    | cons x xs => exact ⟨x, xs, rfl⟩
  have hdhead : (d ++ rest).head? = some x := by
    rw [hdeq, hax]
    simp
  have hdx : isDig x = true := hadig x (by rw [hax]; exact List.mem_cons_self x xs)
  have hdsome := parseDur_isSome (d ++ rest) x hdhead hdx
  rw [hform]
  unfold matchReadNote
  rw [parsePitch_complete c acc oct (w ++ '-' :: (d ++ rest)) hc1 hc2 hacc hoctne hoctdig]
  simp only [expectDash_cons]
  rw [parseWaveTok_complete w (d ++ rest) hw]
  simp only [expectDash_cons]
  cases hpd : parseDur (d ++ rest) with
  | none => rw [hpd] at hdsome; simp at hdsome
  | some v =>
    rcases v with ⟨dg, r2⟩
    rfl

/-- The last character of a grammatical duration is a digit. -/
theorem durTok_getLast (d : List Char) (hd : DurTok d) (c : Char)
    (hc : d.getLast? = some c) : isDig c = true := by
  obtain ⟨a, b, rfl, hane, hadig, hb⟩ := hd
  rcases hb with rfl | ⟨f, rfl, hfne, hfdig⟩
  · rw [List.append_nil] at hc
    exact digits_getLast a hadig c hc
  · rw [List.getLast?_append_of_ne_nil _ (by simp)] at hc
    rw [show ('.' :: f) = (['.'] ++ f) by simp] at hc
    rw [List.getLast?_append_of_ne_nil _ hfne] at hc
    exact digits_getLast f hfdig c hc

/-- C8 (corrected).  Every failure of note string parsing inside score
building is the single undifferentiated failure of calling groups on a
failed regex match: the KeyError of the waveform name lookup is
unreachable from score building, because the waveform alternation is part
of the regex and only ever captures a recognized name.  Moreover parsing
succeeds exactly when the string begins with a grammatical note token,
the prefix semantics of re.match: a string whose full body is not
grammatical is still accepted when a grammatical token leads it. -/
theorem claim8_theorem :
    (∀ (s : List Char) (e : BuildError), parseNoteStrL s = .error e →
      e = BuildError.attributeError) ∧
    (∀ s : List Char, (parseNoteStrL s).toOption.isSome = true ↔ LeadingNoteTok s) := by
  constructor
  · intro s e h
    unfold parseNoteStrL at h
    split at h
    · simp only [Except.error.injEq] at h
      exact h.symm
    · rename_i ng og wg dg hmat
      split at h
      · rename_i e2 hfn
        have hwt := (matchReadNote_sound s (ng, og, wg, dg) hmat).2
        rcases hwt with rfl | rfl | rfl | rfl <;> simp [fromName] at hfn
      · simp at h
  · intro s
    constructor
    · intro h
      unfold parseNoteStrL at h
      split at h
      · simp [Except.toOption] at h
      · rename_i ng og wg dg hmat
        exact (matchReadNote_sound s (ng, og, wg, dg) hmat).1
    · intro h
      have hsome := matchReadNote_complete s h
      obtain ⟨g, hg⟩ := Option.isSome_iff_exists.mp hsome
      have hwt := (matchReadNote_sound s g hg).2
      rcases g with ⟨ng, og, wg, dg⟩
      unfold parseNoteStrL
      rw [hg]
      rcases hwt with rfl | rfl | rfl | rfl <;> simp [fromName, Except.toOption]

/-- C8 counterexample data.  The string E4-sin-1!! is not a full
grammatical note token, since a grammatical token ends with a digit and
this string ends with an exclamation mark, yet score building accepts it:
the regex only matches a leading token and ignores the trailing junk,
raising no error at all. -/
theorem claim8_counterexample :
    (parseNoteStrL "E4-sin-1!!".toList).toOption.isSome = true ∧
    ¬ FullNoteTok "E4-sin-1!!".toList := by
  refine ⟨by decide, ?_⟩
  rintro ⟨p, w, d, hs, hp, hw, hd⟩
  have hdne : d ≠ [] := by
    obtain ⟨a, b, rfl, hane, -, -⟩ := hd
    intro h0
    exact hane (List.append_eq_nil.mp h0).1
  have h1 : ("E4-sin-1!!".toList).getLast? = some '!' := by decide
  rw [hs] at h1
  rw [List.getLast?_append_of_ne_nil _ (by simp)] at h1
  rw [show ('-' :: (w ++ '-' :: d)) = (('-' :: w) ++ ('-' :: d)) by simp] at h1
  rw [List.getLast?_append_of_ne_nil _ (by simp)] at h1
  rw [show ('-' :: d) = (['-'] ++ d) by simp] at h1
  rw [List.getLast?_append_of_ne_nil _ hdne] at h1
  have := durTok_getLast d hd '!' h1
  simp [isDig] at this

/-- C8 witness: a well formed token is accepted and is certified as a
leading grammatical token by the characterization. -/
theorem claim8_witness :
    (parseNoteStrL "E4-sin-1".toList).toOption.isSome = true ∧
    LeadingNoteTok "E4-sin-1".toList :=
  ⟨by decide, (claim8_theorem.2 "E4-sin-1".toList).mp (by decide)⟩

/-- C2 counterexample data.  Run of the end to end example at sample rate
sixteen, buffer size two, tempo one hundred sixty, one beat holding the
single note of duration one beat (frequency stand in fifty five, sine).
The beat time is three eighths of a second and the buffer time one eighth,
so the note expires with the decrement at the end of buffer two, at three
eighths of a second.  Buffer three is silent, but buffer four is not: the
clamped beat fetch re reads the final beat while the current beat equals
the sheet length, and after the dead note is filtered out the same note is
scheduled again from scratch, with the fresh gain of one tenth.  So not
every buffer rendered after the expiry of the note is silent. -/
theorem claim2_counterexample :
    (playFromSheet 16 2 160 [[⟨55, 1, Wave.sin⟩]]).map (fun r => r.queue.isEmpty) =
      [false, false, false, true, false, false] ∧
    ((playFromSheet 16 2 160 [[⟨55, 1, Wave.sin⟩]]).getD 4 ⟨[], []⟩).queue.map
      (fun e => e.2.2) = [1/10] := by
  constructor <;>
    norm_num [playFromSheet, playTimeModel, maxListQ, pyIntQ, playLoop, processNotes,
      memSound, PlayingNote.alive, PlayingNote.decrease, setSounds, addSoundToQueue,
      findSound, insertOrReplace, containsKeyQ, replaceKey, baseFunc, pyLast,
      List.range_succ]

/-- C2 (corrected).  When the current beat strictly exceeds the sheet
length the loop breaks at once: no further buffer is rendered at all, so
active sounds do not play out after that point.  While the current beat is
at most the sheet length the clamped fetch keeps the final beat in view,
and in the end to end example this re creates the expired note: at buffer
four the registry holds a freshly scheduled playing note again, with a
full remaining duration of one quarter second after its first decrement. -/
theorem claim2_theorem :
    (∀ (sf bs : ℕ) (beatTime : ℚ) (allNotes : List (List ReadNote)) (fuel : ℕ)
      (st : LoopSt), st.beat > (allNotes.length : ℤ) →
      playLoop sf bs beatTime allNotes fuel st = []) ∧
    ((playFromSheet 16 2 160 [[⟨55, 1, Wave.sin⟩]]).getD 4 ⟨[], []⟩).notes.map
      (fun p => p.remaining) = [1/4] := by
  constructor
  · intro sf bs beatTime allNotes fuel st h
    cases fuel with
    | zero => rfl
    | succ m =>
      simp only [playLoop]
      rw [if_pos h]
  · norm_num [playFromSheet, playTimeModel, maxListQ, pyIntQ, playLoop, processNotes,
      memSound, PlayingNote.alive, PlayingNote.decrease, setSounds, addSoundToQueue,
      findSound, insertOrReplace, containsKeyQ, replaceKey, baseFunc, pyLast,
      List.range_succ]

/-- C2 witness: the break behaviour applied at a concrete state whose beat
is past the sheet length. -/
theorem claim2_witness :
    ((5:ℤ) > (([[]] : List (List ReadNote)).length : ℤ)) ∧
    playLoop 1 1 1 [[]] 3 ⟨[], [], 0, 5⟩ = [] :=
  ⟨by simp, claim2_theorem.1 1 1 1 [[]] 3 ⟨[], [], 0, 5⟩ (by simp)⟩

/-- Replacing the value of a key leaves the key list unchanged. -/
theorem keys_replaceKey (q : Queue) (k : Sound) (v : QEntry) :
    (replaceKey q k v).map Prod.fst = q.map Prod.fst := by
  induction q with
  | nil => rfl
  | cons e r ih =>
    by_cases hk : e.1 = k
    · simp [replaceKey, hk, ih]
    · simp [replaceKey, hk, ih]

/-- An absent key is not among the queue keys. -/
theorem containsKeyQ_false_not_mem (q : Queue) (k : Sound)
    (h : containsKeyQ q k = false) : k ∉ q.map Prod.fst := by
  induction q with
  | nil => simp
  | cons e r ih =>
    simp only [containsKeyQ] at h
    split at h
    · simp at h
    · rename_i hk
      simp only [List.map_cons, List.mem_cons]
      rintro (rfl | hmem)
      · exact hk rfl
      · exact ih h hmem

/-- Dict assignment preserves distinctness of the keys. -/
theorem insertOrReplace_keys_nodup (q : Queue) (k : Sound) (v : QEntry)
    (h : (q.map Prod.fst).Nodup) : ((insertOrReplace q k v).map Prod.fst).Nodup := by
  unfold insertOrReplace
  by_cases hc : containsKeyQ q k = true
  · simp [hc, keys_replaceKey, h]
  · simp only [Bool.not_eq_true] at hc
    simp only [hc, Bool.false_eq_true, if_false, List.map_append, List.map_cons,
      List.map_nil]
    rw [List.nodup_append]
    exact ⟨h, List.nodup_singleton k,
      by simpa [List.disjoint_singleton] using containsKeyQ_false_not_mem q k hc⟩

/-- The queue rebuilt by set_sounds always has pairwise distinct keys: at
most one entry per distinct sound. -/
theorem setSounds_keys_nodup (oldQ : Queue) (sf : ℚ) (n : ℕ) (sounds : List Sound) :
    ((setSounds oldQ sf n sounds).map Prod.fst).Nodup := by
  unfold setSounds
  suffices hgen : ∀ nq : Queue, (nq.map Prod.fst).Nodup →
      ((sounds.foldl (fun nq s => addSoundToQueue oldQ sf n s nq) nq).map Prod.fst).Nodup by
    exact hgen [] (by simp)
  induction sounds with
  | nil => intro nq h; simpa using h
  | cons s rest ih =>
    intro nq h
    simp only [List.foldl_cons]
    apply ih
    unfold addSoundToQueue
    split
    · exact insertOrReplace_keys_nodup nq _ _ h
    · exact insertOrReplace_keys_nodup nq _ _ h

/-- Decreasing the remaining duration never changes the sound of a playing
note. -/
theorem decrease_sound_eq (p : PlayingNote) (d : ℚ) : (p.decrease d).sound = p.sound := by
  unfold PlayingNote.decrease
  split <;> rfl

/-- A failed membership scan means the sound is absent. -/
theorem memSound_false_not_mem (l : List PlayingNote) (s : Sound)
    (h : memSound l s = false) : s ∉ l.map (fun p => p.sound) := by
  induction l with
  | nil => simp
  | cons p r ih =>
    simp only [memSound] at h
    split at h
    · simp at h
    · rename_i hp
      simp only [List.map_cons, List.mem_cons]
      rintro (rfl | hmem)
      · exact hp rfl
      · exact ih h hmem

/-- The scheduling step of process_notes preserves distinctness of the
sounds of the playing notes. -/
theorem processNotes_nodup (bt beatT : ℚ) (ntp : List ReadNote)
    (cur : List PlayingNote) (h : (cur.map (fun p => p.sound)).Nodup) :
    ((processNotes bt beatT ntp cur).map (fun p => p.sound)).Nodup := by
  unfold processNotes
  have hadd : ∀ (ntp2 : List ReadNote) (cur2 : List PlayingNote),
      (cur2.map (fun p => p.sound)).Nodup →
      ((ntp2.foldl (fun cur nt =>
        if memSound cur ⟨nt.note, nt.wave⟩ then cur
        else cur ++ [{ sound := ⟨nt.note, nt.wave⟩, duration := nt.beats * beatT,
                       remaining := nt.beats * beatT }]) cur2).map
        (fun p => p.sound)).Nodup := by
    intro ntp2
    induction ntp2 with
    | nil => intro cur2 h2; simpa using h2
    | cons nt rest ih =>
      intro cur2 h2
      simp only [List.foldl_cons]
      apply ih
      by_cases hm : memSound cur2 ⟨nt.note, nt.wave⟩ = true
      · simpa [hm] using h2
      · simp only [Bool.not_eq_true] at hm
        simp only [hm, Bool.false_eq_true, if_false, List.map_append, List.map_cons,
          List.map_nil]
        rw [List.nodup_append]
        exact ⟨h2, List.nodup_singleton _,
          by simpa [List.disjoint_singleton] using memSound_false_not_mem cur2 _ hm⟩
  have h2 := hadd ntp cur h
  have h3 : (((ntp.foldl (fun cur nt =>
      if memSound cur ⟨nt.note, nt.wave⟩ then cur
      else cur ++ [{ sound := ⟨nt.note, nt.wave⟩, duration := nt.beats * beatT,
                     remaining := nt.beats * beatT }]) cur).filter
      (fun p => p.alive)).map (fun p => p.sound)).Nodup :=
    List.Nodup.sublist (List.Sublist.map _ (List.filter_sublist _)) h2
  rw [List.map_map]
  have hcomp : ((fun p => p.sound) ∘ fun p : PlayingNote => p.decrease bt) =
      fun p : PlayingNote => p.sound := by
    funext p
    simp [Function.comp, decrease_sound_eq]
  rw [hcomp]
  exact h3

/-- Along every run of the scheduling loop, every rendered buffer record
has pairwise distinct queue keys and pairwise distinct playing note
sounds, provided the incoming playing notes are distinct. -/
theorem playLoop_inv (sf bs : ℕ) (beatTime : ℚ) (allNotes : List (List ReadNote)) :
    ∀ (fuel : ℕ) (st : LoopSt), (st.notes.map (fun p => p.sound)).Nodup →
    ∀ r ∈ playLoop sf bs beatTime allNotes fuel st,
      (r.queue.map Prod.fst).Nodup ∧ (r.notes.map (fun p => p.sound)).Nodup := by
  intro fuel
  induction fuel with
  | zero => intro st _ r hr; simp [playLoop] at hr
  | succ m ih =>
    intro st hst r hr
    simp only [playLoop] at hr
    by_cases hb : st.beat > (allNotes.length : ℤ)
    · rw [if_pos hb] at hr; simp at hr
    · rw [if_neg hb] at hr
      simp only [List.mem_cons] at hr
      rcases hr with rfl | hr
      · exact ⟨setSounds_keys_nodup _ _ _ _, processNotes_nodup _ _ _ _ hst⟩
      · exact ih _ (processNotes_nodup _ _ _ _ hst) r hr

/-- C3 (confirmed).  At every point of a render pass the registry holds at
most one entry per distinct sound key, and the playing note list never
holds two notes of the same sound: re scheduling an already active sound
is coalesced instead of creating a second independently phased
oscillator. -/
theorem claim3_theorem (sf bs bpm : ℕ) (sheet : List (List ReadNote))
    (r : BufferRec) (hr : r ∈ playFromSheet sf bs bpm sheet) :
    (r.queue.map Prod.fst).Nodup ∧ (r.notes.map (fun p => p.sound)).Nodup := by
  unfold playFromSheet at hr
  exact playLoop_inv sf bs _ sheet _ ⟨[], [], 0, 0⟩ (by simp) r hr

/-- C3 witness: the invariant read off the single buffer of a one beat
silent sheet. -/
theorem claim3_witness :
    ((⟨[], []⟩ : BufferRec) ∈ playFromSheet 1 1 60 [[]]) ∧
    (((⟨[], []⟩ : BufferRec).queue.map Prod.fst).Nodup ∧
      ((⟨[], []⟩ : BufferRec).notes.map (fun p => p.sound)).Nodup) := by
  have hmem : (⟨[], []⟩ : BufferRec) ∈ playFromSheet 1 1 60 [[]] := by
    norm_num [playFromSheet, playTimeModel, maxListQ, pyIntQ, playLoop, processNotes,
      setSounds]
  exact ⟨hmem, claim3_theorem 1 1 60 [[]] ⟨[], []⟩ hmem⟩
